import Mathlib

/-! Secret propagation-delay probe (`main.go`).

A shallow embedding of the measurement loop of `main.go` together with the
parts of the Go standard library it relies on (`strconv.Atoi`, the `%d`
verb of `fmt`, and the representation of `time.Time`), followed by theorems
about the loop, the updater goroutine and the watcher goroutine.

Machine integers are modelled as `Int`/`Nat` with explicit wrap-around.
Go `int` is taken to be 64 bits wide (`strconv.IntSize = 64`).
-/

namespace Probe

/-! ## Machine integers -/

deriving instance DecidableEq for Except

/-- Two's-complement wrap-around of a mathematical integer into `int64`. -/
def wrap64 (x : Int) : Int := (x + 9223372036854775808) % 18446744073709551616 - 9223372036854775808

/-- Range of the Go type `int64`. -/
def InInt64 (x : Int) : Prop := -9223372036854775808 ≤ x ∧ x < 9223372036854775808

instance (x : Int) : Decidable (InInt64 x) := by unfold InInt64; infer_instance

/-- Go's integer division, which truncates towards zero. -/
def quo (a b : Int) : Int := Int.tdiv a b

/-- Go's integer remainder, which has the sign of the dividend. -/
def rem (a b : Int) : Int := Int.tmod a b

/-! ## `strconv` -/

/-- The two error kinds of `strconv` (`ErrSyntax`, `ErrRange`). -/
inductive NumError where
  | ErrSyntax
  | ErrRange
  deriving DecidableEq, Repr

/-- The digit test of `ParseUint` for base 10: `'0' <= c && c <= '9'`, value `c - '0'`. -/
def digitVal (c : Char) : Option Nat :=
  if 48 ≤ c.toNat ∧ c.toNat ≤ 57 then some (c.toNat - 48) else none

/-- The digit loop of `strconv.ParseUint(s, 10, 64)`: `n` is the value accumulated so far.
A character that is not a decimal digit gives `ErrSyntax`; `n >= cutoff` with
`cutoff = maxUint64/10 + 1` (so that `n*10` would overflow) or a wrapped sum `n1 < n`
gives `ErrRange`. -/
def parseUintLoop : Nat → List Char → Except NumError Nat
  | n, [] => .ok n
  | n, c :: cs =>
    match digitVal c with
    | none => .error .ErrSyntax
    | some d =>
      if n ≥ 18446744073709551615 / 10 + 1 then .error .ErrRange
      else
        let n10 := n * 10
        let n1 := (n10 + d) % 18446744073709551616
        if n1 < n10 ∨ n1 > 18446744073709551615 then .error .ErrRange
        else parseUintLoop n1 cs

/-- Model of `strconv.ParseUint(s, 10, 64)`: the empty string is a syntax error. -/
def ParseUint (s : List Char) : Except NumError Nat :=
  match s with
  | [] => .error .ErrSyntax
  | _ => parseUintLoop 0 s

/-- Model of `strconv.ParseInt(s, 10, 0)` with a 64-bit `int`: optional sign, then
`ParseUint`; a syntax error is returned as is, and a magnitude outside the `int64`
range (also one on which `ParseUint` reported `ErrRange`) is a range error. -/
def ParseInt (s : List Char) : Except NumError Int :=
  match s with
  | [] => .error .ErrSyntax
  | c :: cs =>
    let neg := c = '-'
    let body := if c = '+' ∨ c = '-' then cs else s
    match ParseUint body with
    | .error .ErrSyntax => .error .ErrSyntax
    | .error .ErrRange => .error .ErrRange
    | .ok un =>
      if ¬ neg ∧ un ≥ 9223372036854775808 then .error .ErrRange
      else if neg ∧ un > 9223372036854775808 then .error .ErrRange
      else .ok (if neg then -(un : Int) else (un : Int))

/-- Model of `strconv.Atoi`: for every input its result is that of `ParseInt(s, 10, 0)`
(the fast path of `Atoi` for short strings computes the same value). A Go string is a
byte sequence; a character outside ASCII consists of bytes that are not digits, so
reading the string character by character rejects the same inputs. -/
def Atoi (s : String) : Except NumError Int := ParseInt s.data

/-! ## `fmt` with the verb `%d` -/

/-- The byte `'0' + d`. -/
def digitChar (d : Nat) : Char := Char.ofNat (48 + d)

/-- The digit loop of `fmt`'s integer formatting: digits are produced from the least
significant one and placed in front of those already written. A `uint64` has at most
20 decimal digits, which bounds the loop. -/
def fmtDigits : Nat → Nat → List Char → List Char
  | 0, _, acc => acc
  | fuel + 1, u, acc =>
    if u < 10 then digitChar u :: acc
    else fmtDigits fuel (u / 10) (digitChar (u % 10) :: acc)

/-- Model of `fmt.Sprintf("%d", n)` for an `int64` value `n`. -/
def formatInt (n : Int) : String :=
  if n < 0 then ⟨'-' :: fmtDigits 20 n.natAbs []⟩ else ⟨fmtDigits 20 n.natAbs []⟩

/-! ## `time` -/

/-- The constant `unixToInternal`: seconds from January 1, year 1 to January 1, 1970. -/
def unixToInternal : Int := 62135596800

/-- The constant `internalToUnix = -unixToInternal`. -/
def internalToUnix : Int := -62135596800

/-- The constant `wallToInternal`: seconds from January 1, year 1 to January 1, 1885. -/
def wallToInternal : Int := 59453308800

/-- The constant `minWall = wallToInternal`. -/
def minWall : Int := 59453308800

/-- The `loc` pointer of a `time.Time`: `nil` (the zero value) or `&localLoc`
(`time.Local`), the only two values that occur in this program. -/
inductive Loc where
  | nil
  | Local
  deriving DecidableEq, Repr

/-- The struct `time.Time`: `wall` is a `uint64` holding a 1-bit `hasMonotonic` flag
(bit 63), a 33-bit seconds field (bits 30..62) and a 30-bit nanoseconds field
(bits 0..29); `ext` is an `int64`. The Go operator `==` on two `time.Time` values
compares the three fields, which is the derived equality here. -/
structure Time where
  wall : Nat
  ext : Int
  loc : Loc
  deriving DecidableEq, Repr

/-- The zero value `time.Time{}` of an uninitialised variable. -/
def Time.zero : Time := { wall := 0, ext := 0, loc := .nil }

/-- What the runtime clock returns to `time.Now`: wall-clock seconds since the Unix
epoch, nanoseconds within the second, and the monotonic clock reading (already
relative to process start). -/
structure Clock where
  sec : Int
  nsec : Nat
  mono : Int
  deriving DecidableEq, Repr

/-- A clock reading the runtime can produce: `sec` and `mono` are `int64` values and
`nsec` lies in `[0, 999999999]`. -/
def Clock.Valid (c : Clock) : Prop := InInt64 c.sec ∧ c.nsec < 1000000000 ∧ InInt64 c.mono

instance (c : Clock) : Decidable c.Valid := by unfold Clock.Valid; infer_instance

/-- The test `t.wall&hasMonotonic != 0` (bit 63 of `wall`). -/
def Time.hasMonotonic (t : Time) : Bool := t.wall / 9223372036854775808 % 2 = 1

/-- The method `t.nsec()`: `int32(t.wall & nsecMask)`, the low 30 bits of `wall`. -/
def Time.nsec (t : Time) : Int := ((t.wall % 1073741824 : Nat) : Int)

/-- The 33-bit seconds field `t.wall << 1 >> (nsecShift + 1)`. -/
def Time.wallSec (t : Time) : Int := ((t.wall % 9223372036854775808 / 1073741824 : Nat) : Int)

/-- The method `t.sec()`: seconds since January 1, year 1. -/
def Time.sec (t : Time) : Int :=
  if t.hasMonotonic then wrap64 (wallToInternal + t.wallSec) else t.ext

/-- The method `t.unixSec()`, whose result the method `t.Unix()` returns. -/
def Time.Unix (t : Time) : Int := wrap64 (t.sec + internalToUnix)

/-- The method `t.stripMono()`: drop the monotonic clock reading, keeping the wall time. -/
def Time.stripMono (t : Time) : Time :=
  if t.hasMonotonic then { t with ext := t.sec, wall := t.wall % 1073741824 } else t

/-- The method `t.addSec(d)`: add `d` seconds, saturating `ext` on overflow. -/
def Time.addSec (t : Time) (d : Int) : Time :=
  let packed : Option Time :=
    if t.hasMonotonic then
      let dsec := wrap64 (t.wallSec + d)
      if 0 ≤ dsec ∧ dsec ≤ 8589934591 then
        some { t with wall := t.wall % 1073741824 + dsec.toNat * 1073741824 + 9223372036854775808 }
      else none
    else none
  match packed with
  | some r => r
  | none =>
    let t := t.stripMono
    let sum := wrap64 (t.ext + d)
    if (decide (sum > t.ext)) = (decide (d > 0)) then { t with ext := sum }
    else if d > 0 then { t with ext := 9223372036854775807 }
    else { t with ext := -9223372036854775807 }

/-- The method `t.Add(d)` for a `Duration` `d` in nanoseconds. -/
def Time.Add (t : Time) (d : Int) : Time :=
  let dsec0 := quo d 1000000000
  let nsec0 := t.nsec + rem d 1000000000
  let dsec := if nsec0 ≥ 1000000000 then wrap64 (dsec0 + 1) else if nsec0 < 0 then wrap64 (dsec0 - 1) else dsec0
  let nsec := if nsec0 ≥ 1000000000 then nsec0 - 1000000000 else if nsec0 < 0 then nsec0 + 1000000000 else nsec0
  let t1 : Time := { t with wall := t.wall / 1073741824 * 1073741824 + nsec.toNat }
  let t2 := t1.addSec dsec
  if t2.hasMonotonic then
    let te := wrap64 (t2.ext + d)
    if (d < 0 ∧ te > t2.ext) ∨ (d > 0 ∧ te < t2.ext) then t2.stripMono
    else { t2 with ext := te }
  else t2

/-- Model of `time.Now()` on the clock reading `c`: while the seconds fit the 33-bit
field the result carries the monotonic reading in `ext`. -/
def Now (c : Clock) : Time :=
  let sec := wrap64 (c.sec + (unixToInternal - minWall))
  if sec < 0 ∨ sec ≥ 8589934592 then
    { wall := c.nsec, ext := wrap64 (sec + minWall), loc := .Local }
  else
    { wall := 9223372036854775808 + sec.toNat * 1073741824 + c.nsec, ext := c.mono, loc := .Local }

/-- Model of `time.Unix(sec, 0)`: `Time{uint64(0), sec + unixToInternal, Local}`. -/
def Unix (sec : Int) : Time := { wall := 0, ext := wrap64 (sec + unixToInternal), loc := .Local }

/-- The remainder `r` computed by `div(t, time.Second)`: the branch of `div` for a
divisor that is a multiple of one second, with `d1 = 1`. -/
def Time.divSecondRem (t : Time) : Int :=
  let neg := decide (t.sec < 0)
  let nsec := if neg then (if -t.nsec < 0 then -t.nsec + 1000000000 else -t.nsec) else t.nsec
  let sec := if neg then (if -t.nsec < 0 then wrap64 (wrap64 (-t.sec) - 1) else wrap64 (-t.sec)) else t.sec
  let r := wrap64 (wrap64 (rem sec 1 * 1000000000) + nsec)
  if neg ∧ r ≠ 0 then 1000000000 - r else r

/-- The call `t.Truncate(time.Second)`: strip the monotonic reading, then subtract the
remainder of the division by one second. -/
def Time.TruncateSecond (t : Time) : Time :=
  let t := t.stripMono
  t.Add (-(t.divSecondRem))

/-- The method `t.Equal(u)`. -/
def Time.Equal (t u : Time) : Bool :=
  if t.hasMonotonic ∧ u.hasMonotonic then t.ext = u.ext
  else t.sec = u.sec ∧ t.nsec = u.nsec

/-- The method `t.Before(u)`. -/
def Time.Before (t u : Time) : Bool :=
  if t.hasMonotonic ∧ u.hasMonotonic then t.ext < u.ext
  else t.sec < u.sec ∨ (t.sec = u.sec ∧ t.nsec < u.nsec)

/-- The method `t.Sub(u)`, a `Duration` in nanoseconds, saturating at the bounds of
`int64`. -/
def Time.Sub (t u : Time) : Int :=
  if t.hasMonotonic ∧ u.hasMonotonic then
    let d := wrap64 (t.ext - u.ext)
    if d < 0 ∧ t.ext > u.ext then 9223372036854775807
    else if d > 0 ∧ t.ext < u.ext then -9223372036854775808
    else d
  else
    let d := wrap64 (wrap64 (wrap64 (t.sec - u.sec) * 1000000000) + (t.nsec - u.nsec))
    if (u.Add d).Equal t then d
    else if t.Before u then -9223372036854775808
    else 9223372036854775807

/-! ## `main.go`: the loop of `main` (lines 39-62) -/

/-- A line written with `log.Printf` or `log.Println`, recorded by call site and
arguments instead of rendered text: `parseWarn` is line 49
(`warn: failed to parse pod value as time %q: %v`); `caught` is line 58
(`pod caught with last secret update (%v), took: %v`) with the arguments
`lastSecretUpdate.Unix()` and `now.Sub(lastSecretUpdate)` in nanoseconds; `updateFail`
is line 72 (`warn: secret update fail: %v`); `updated` is line 74
(`secret updated with <v>`). -/
inductive LogEntry where
  | parseWarn (v : String) (err : NumError)
  | caught (lastSecretUpdateUnix : Int) (took : Int)
  | updateFail (err : String)
  | updated (v : String)
  deriving DecidableEq, Repr

/-- The two variables declared on line 39, which live across iterations. -/
structure State where
  lastSecretUpdate : Time
  lastPodVal : Time
  deriving DecidableEq, Repr

/-- The case of the `select` on line 44 that fires in an iteration: either
`case lastSecretUpdate = <-appliedSecrets` received `t`, or `case v := <-podVals`
received `v`. -/
inductive Event where
  | appliedSecrets (t : Time)
  | podVals (v : String)
  deriving DecidableEq, Repr

/-- What one iteration does besides updating the two variables: the lines printed on
standard output, the log lines, and whether control reaches the send
`updateSecret <- struct{}{}` on line 59. -/
structure Output where
  stdout : List String
  log : List LogEntry
  trigger : Bool
  deriving DecidableEq, Repr

/-- The line printed on line 40. -/
def header : String := "now,last_secret_update,last_on_pod"

/-- The text produced by `fmt.Printf("%d,%d,%d\n", a, b, c)`, without the newline. -/
def record (a b c : Int) : String := formatInt a ++ "," ++ formatInt b ++ "," ++ formatInt c

/-- One iteration of the `for` loop of `main` (lines 41-62). `c` is the clock reading
taken by `now := time.Now()` on line 42, before the `select` starts waiting; `e` is the
case of the `select` that fires. `ok` is declared on line 43 and assigned nowhere. -/
def mainLoopBody (s : State) (c : Clock) (e : Event) : State × Output :=
  let now := Now c
  let ok : Bool := false
  match e with
  | .appliedSecrets t =>
    ({ s with lastSecretUpdate := t }, { stdout := [], log := [], trigger := false })
  | .podVals v =>
    match Atoi v with
    | .error err =>
      (s, { stdout := [], log := [.parseWarn v err], trigger := false })
    | .ok intVal =>
      let lastPodVal := Unix intVal
      let printed :=
        if ok then [record now.Unix s.lastSecretUpdate.Unix lastPodVal.Unix] else []
      if lastPodVal = s.lastSecretUpdate then
        ({ s with lastPodVal := lastPodVal },
         { stdout := printed,
           log := [.caught s.lastSecretUpdate.Unix (now.Sub s.lastSecretUpdate)],
           trigger := true })
      else
        ({ s with lastPodVal := lastPodVal },
         { stdout := printed, log := [], trigger := false })

/-- The observable history of `main` from line 37 on: the two variables, everything
written to standard output and to the log from there on, and the number of times
control has reached a send on `updateSecret`. What the set-up of lines 17-33 printed
before (the pod description printed by `makePod`) is not part of it. -/
structure Run where
  state : State
  stdout : List String
  log : List LogEntry
  sent : Nat
  deriving DecidableEq, Repr

/-- The run when the loop is entered: the first trigger was sent on line 37, both
variables hold the zero `time.Time`, and the header was printed on line 40. -/
def mainInit : Run :=
  { state := { lastSecretUpdate := Time.zero, lastPodVal := Time.zero },
    stdout := [header], log := [], sent := 1 }

/-- One iteration applied to a run. -/
def Run.step (r : Run) (c : Clock) (e : Event) : Run :=
  let res := mainLoopBody r.state c e
  { state := res.1,
    stdout := r.stdout ++ res.2.stdout,
    log := r.log ++ res.2.log,
    sent := r.sent + (if res.2.trigger then 1 else 0) }

/-- The `for` loop of `main` on a finite sequence of iterations, each given by the
clock reading of line 42 and the case of the `select` that fires. -/
def mainLoop : Run → List (Clock × Event) → Run
  | r, [] => r
  | r, (c, e) :: rest => mainLoop (r.step c e) rest

/-! ## `main.go`: `startSecretUpdates` (lines 65-88) -/

/-- Line 69: `now := time.Now().Truncate(time.Second)`. -/
def updaterNow (c : Clock) : Time := (Now c).TruncateSecond

/-- Line 70: `v := fmt.Sprintf("%d", now.Unix())`. -/
def updaterValue (now : Time) : String := formatInt now.Unix

/-- What one pass through the body of `for range update` does: the value handed to
`applySecret`, the log lines, and the values sent on `out`. -/
structure UpdaterCycle where
  v : String
  log : List LogEntry
  out : List Time
  deriving DecidableEq, Repr

/-- One pass through the body of `for range update` (lines 69-84). `c` is the clock
reading of line 69 and `applySecret` gives the error returned by the call on line 71
for the value written (`none` for a `nil` error). The `if` on lines 71-73 only logs;
control then continues with lines 74 and 84. -/
def startSecretUpdatesCycle (c : Clock) (applySecret : String → Option String) : UpdaterCycle :=
  let now := updaterNow c
  let v := updaterValue now
  let warn : List LogEntry :=
    match applySecret v with
    | some err => [.updateFail err]
    | none => []
  { v := v, log := warn ++ [.updated v], out := [now] }

/-! ## `main.go`: the goroutine of `startPodSecretWatch` (lines 178-190) -/

/-- A return of `s.ReadLine()` as the goroutine sees it: a line, `io.EOF`, or another
error with its message. -/
inductive ReadLine where
  | line (l : String)
  | eof
  | err (msg : String)
  deriving DecidableEq, Repr

/-- An operation performed on a channel by its sending side. -/
inductive ChanOp (α : Type) where
  | send (v : α)
  | close
  deriving DecidableEq, Repr

/-- What the goroutine has done on a finite sequence of `ReadLine` returns: its
operations on `out`, in order, and whether it has returned. -/
structure Watch where
  ops : List (ChanOp String)
  returned : Bool
  deriving DecidableEq, Repr

/-- The loop of lines 179-189: a line is sent on `out`; an error other than `io.EOF`
is sent on `out` as its message; `io.EOF` leaves the loop, after which the goroutine
returns. When the returns run out the goroutine is waiting in `ReadLine`. The loop is
given for every sequence of returns; which of them the program can get is the matter of
`pipeReadLine` below. -/
def startPodSecretWatchLoop : List ReadLine → Watch
  | [] => { ops := [], returned := false }
  | .eof :: _ => { ops := [], returned := true }
  | .line l :: rest =>
    let w := startPodSecretWatchLoop rest
    { w with ops := .send l :: w.ops }
  | .err msg :: rest =>
    let w := startPodSecretWatchLoop rest
    { w with ops := .send msg :: w.ops }

/-- What the process started on line 170 does on its standard output: it writes a line,
or it exits, which ends the stream. -/
inductive ChildEvent where
  | output (l : String)
  | exit
  deriving DecidableEq, Repr

/-- An operation on the write end `pw` of the `io.Pipe` of line 172. -/
inductive PipeOp where
  | write (l : String)
  | close
  deriving DecidableEq, Repr

/-- What is done to `pw`, which line 173 installs as `cmd.Stdout`: since it is not an
`*os.File`, `os/exec` copies the output of the process to it, and stops copying at the
end of the stream. Nothing closes `pw`: the program calls neither `pw.Close` nor
`cmd.Wait`, and `os/exec` closes only the descriptors it created itself. -/
def execCopy : List ChildEvent → List PipeOp
  | [] => []
  | .output l :: rest => .write l :: execCopy rest
  | .exit :: _ => []

/-- The returns of `s.ReadLine()` on the reader of line 175, which reads the read end
`pr`: one line for each line written to `pw`, and `io.EOF` once `pw` has been closed.
When the list ends the next call is waiting for data. -/
def pipeReadLine : List PipeOp → List ReadLine
  | [] => []
  | .write l :: rest => .line l :: pipeReadLine rest
  | .close :: _ => [.eof]

/-- The function `startPodSecretWatch` (lines 169-196) once `cmd.Start` has succeeded:
the goroutine of lines 178-190 runs on what the reader of line 175 returns for the
output of the process. -/
def startPodSecretWatch (ev : List ChildEvent) : Watch :=
  startPodSecretWatchLoop (pipeReadLine (execCopy ev))

/-- What a receiver finds on a Go channel after the sending side has performed `ops`:
the values offered and not yet received, and whether the channel was closed. -/
structure Chan (α : Type) where
  pending : List α
  closed : Bool
  deriving DecidableEq, Repr

/-- The channel after the operations `ops` of the sending side. -/
def Chan.ofOps {α : Type} : List (ChanOp α) → Chan α
  | [] => { pending := [], closed := false }
  | .send v :: rest => let ch := Chan.ofOps rest; { ch with pending := v :: ch.pending }
  | .close :: _ => { pending := [], closed := true }

/-- The receive `v := <-ch`: the next value when one is offered; the zero value when
the channel is closed and drained; `none` when the receive blocks. -/
def Chan.recv {α : Type} (zero : α) (ch : Chan α) : Option (α × Chan α) :=
  match ch.pending with
  | v :: rest => some (v, { ch with pending := rest })
  | [] => if ch.closed then some (zero, ch) else none

/-- The result of `n` successive receives `<-ch` of strings, `none` as soon as one of
them finds the channel open and empty, where it blocks. -/
def Chan.recvN (ch : Chan String) : Nat → Option (List String)
  | 0 => some []
  | n + 1 =>
    match ch.recv "" with
    | none => none
    | some (v, ch1) => (ch1.recvN n).map (fun vs => v :: vs)

/-! ## The three goroutines together

The channels `updateSecret` and `appliedSecrets` are unbuffered (`make(chan T)`), so a
send and the matching receive happen together. The composed system is a transition
system whose state holds the variables of `main` and the control points of `main` and
of the updater goroutine; the watcher goroutine may offer any line at any time. -/

/-- Control point of `main`: blocked in the send on line 37, waiting in the `select`
of line 44, or blocked in the send on line 59. -/
inductive MainPc where
  | initSend
  | select
  | send
  deriving DecidableEq, Repr

/-- Control point of the updater goroutine: waiting in `for range update` (line 68),
inside `applySecret` (line 71) with `now` computed, or blocked in `out <- now`
(line 84). -/
inductive UpdaterPc where
  | range
  | apply (now : Time)
  | emit (now : Time)
  deriving DecidableEq, Repr

/-- State of the composed system. -/
structure Sys where
  vars : State
  mainPc : MainPc
  updaterPc : UpdaterPc
  deriving DecidableEq, Repr

/-- A step of the composed system, with what the environment contributes to it.
`trigger c`: the send on `updateSecret` (line 37 or 59) meets the receive of line 68,
and `c` is the clock reading the updater takes next on line 69. `applied err`: the call
`applySecret` on line 71 returns `err`. `write w c`: the send `out <- now` of the value
`w` (line 84) meets the receive of line 45, and `c` is the clock reading of line 42 in
that iteration of `main`. `obs c v`: the receive of line 46 gets the line `v`, and `c`
is the clock reading of line 42. -/
inductive Action where
  | trigger (c : Clock)
  | applied (err : Option String)
  | write (w : Time) (c : Clock)
  | obs (c : Clock) (v : String)
  deriving DecidableEq, Repr

/-- The system when `main` reaches line 37. -/
def Sys.init : Sys :=
  { vars := { lastSecretUpdate := Time.zero, lastPodVal := Time.zero },
    mainPc := .initSend, updaterPc := .range }

/-- The transition function: `none` when the action is not enabled in the state (one
of the two parties is not at the matching control point). -/
def Sys.step (s : Sys) : Action → Option Sys
  | .trigger c =>
    if (s.mainPc = .initSend ∨ s.mainPc = .send) ∧ s.updaterPc = .range then
      some { s with mainPc := .select, updaterPc := .apply (updaterNow c) }
    else none
  | .applied _ =>
    match s.updaterPc with
    | .apply now => some { s with updaterPc := .emit now }
    | _ => none
  | .write w c =>
    if s.mainPc = .select ∧ s.updaterPc = .emit w then
      let res := mainLoopBody s.vars c (.appliedSecrets w)
      some { vars := res.1, mainPc := if res.2.trigger then .send else .select,
             updaterPc := .range }
    else none
  | .obs c v =>
    if s.mainPc = .select then
      let res := mainLoopBody s.vars c (.podVals v)
      some { s with vars := res.1, mainPc := if res.2.trigger then .send else .select }
    else none

/-- Execution of a sequence of actions, `none` if one of them is not enabled. -/
def Sys.run : Sys → List Action → Option Sys
  | s, [] => some s
  | s, a :: rest =>
    match s.step a with
    | none => none
    | some s1 => Sys.run s1 rest

/-! ## Auxiliary notions used in the statements -/

/-- The parse step of `main` (lines 47 and 52): `strconv.Atoi(v)`, and on success
`time.Unix(int64(intVal), 0)`. -/
def valueParser (v : String) : Except NumError Time :=
  match Atoi v with
  | .error err => .error err
  | .ok intVal => .ok (Unix intVal)

/-- The part of a line that `ParseInt` hands to `ParseUint`: the line without a leading
sign. -/
def unsignedPart (s : List Char) : List Char :=
  match s with
  | [] => []
  | c :: cs => if c = '+' ∨ c = '-' then cs else s

/-- The number written by a run of decimal digits that continues the digits already
read, whose value is `acc`; `none` when a character is not a decimal digit. The value is
a mathematical natural number, without any bound. -/
def digitsValue : Nat → List Char → Option Nat
  | acc, [] => some acc
  | acc, c :: cs =>
    match digitVal c with
    | none => none
    | some d => digitsValue (acc * 10 + d) cs

/-- The natural number written in decimal by `cs`: one or more decimal digits. -/
def decimalNat (cs : List Char) : Option Nat :=
  match cs with
  | [] => none
  | _ => digitsValue 0 cs

/-- The reading of a line as a decimal integer, following the words of the
specification and not the code: an optional sign `+` or `-` followed by one or more
decimal digits denotes the integer with that sign and that magnitude, of any size;
every other line (the empty one, a lone sign, one with another character) denotes
none. -/
def lineInteger (s : List Char) : Option Int :=
  match s with
  | [] => none
  | c :: cs =>
    if c = '-' then (decimalNat cs).map (fun (u : Nat) => -(Int.ofNat u))
    else if c = '+' then (decimalNat cs).map (fun (u : Nat) => Int.ofNat u)
    else (decimalNat (c :: cs)).map (fun (u : Nat) => Int.ofNat u)

/-- The value of the last line of `vs` that parses, or `t0` when none does. -/
def lastParsed (t0 : Time) (vs : List String) : Time :=
  vs.foldl (fun t v => match valueParser v with | .ok t1 => t1 | .error _ => t) t0

/-- Iterations of the loop in which the `select` receives the given lines from
`podVals`, each paired with the clock reading of line 42. -/
def observations (obs : List (Clock × String)) : List (Clock × Event) :=
  obs.map (fun p => (p.1, Event.podVals p.2))

/-- Whether an action of the composed system is a delivered trigger. -/
def Action.isTrigger : Action → Bool
  | .trigger _ => true
  | _ => false

/-- Whether an action of the composed system is a delivered WriteEvent. -/
def Action.isWrite : Action → Bool
  | .write _ _ => true
  | _ => false

/-- Where the system stands after a trigger that started the write of `w`, in terms of
the actions `m` performed since: the updater has not handed over `w` yet; or `w` was
handed over and is not confirmed yet; or `w` was handed over and then observed, and
`main` is blocked in the send of the next trigger. -/
def Cycle (w : Time) (s : Sys) (m : List Action) : Prop :=
  ((s.updaterPc = .apply w ∨ s.updaterPc = .emit w) ∧ ∀ a ∈ m, a.isWrite = false) ∨
  (s.updaterPc = .range ∧ s.mainPc = .select ∧ s.vars.lastSecretUpdate = w ∧
    ∃ m1 cw m2, m = m1 ++ .write w cw :: m2 ∧ ∀ a ∈ m1 ++ m2, a.isWrite = false) ∨
  (s.updaterPc = .range ∧ s.mainPc = .send ∧
    ∃ m1 cw m2 co v n, m = m1 ++ .write w cw :: (m2 ++ [.obs co v]) ∧
      (∀ a ∈ m1 ++ m2, a.isWrite = false) ∧ Atoi v = .ok n ∧ Unix n = w)

/-! ## Lemmas on the library model -/

theorem wrap64_of_InInt64 {x : Int} (h : InInt64 x) : wrap64 x = x := by
  unfold InInt64 at h; unfold wrap64; omega

theorem wrap64_InInt64 (x : Int) : InInt64 (wrap64 x) := by
  unfold InInt64 wrap64; omega

theorem stripMono_Now (c : Clock) (h : c.Valid) :
    (Now c).stripMono = { wall := c.nsec, ext := wrap64 (c.sec + unixToInternal), loc := .Local } := by
  obtain ⟨⟨h1, h2⟩, h3, -⟩ := h
  unfold Now
  simp only []
  split
  · rename_i hs
    have hm : Time.hasMonotonic { wall := c.nsec, ext := wrap64 (wrap64 (c.sec + (unixToInternal - minWall)) + minWall), loc := .Local } = false := by
      simp only [Time.hasMonotonic, decide_eq_false_iff_not]; omega
    simp only [Time.stripMono, hm]
    simp only [wrap64, unixToInternal, minWall, Bool.false_eq_true, if_false, Time.mk.injEq, and_true, true_and]
    omega
  · rename_i hs
    simp only [Time.stripMono, Time.hasMonotonic, Time.sec, Time.wallSec, wrap64, unixToInternal, minWall, wallToInternal] at hs ⊢
    have hm : (9223372036854775808 + ((c.sec + (62135596800 - 59453308800) + 9223372036854775808) % 18446744073709551616 - 9223372036854775808).toNat * 1073741824 + c.nsec) / 9223372036854775808 % 2 = 1 := by omega
    simp only [hm, decide_True, if_true, Time.mk.injEq, and_true]
    constructor
    · omega
    · omega


theorem quo_neg_small {r : Int} (h0 : 0 ≤ r) (h1 : r < 1000000000) : quo (-r) 1000000000 = 0 := by
  unfold quo
  rw [Int.neg_tdiv, Int.tdiv_eq_zero_of_lt h0 h1]; rfl

theorem rem_neg_small {r : Int} (h0 : 0 ≤ r) (h1 : r < 1000000000) : rem (-r) 1000000000 = -r := by
  unfold rem
  rw [Int.tmod_def, Int.neg_tdiv, Int.tdiv_eq_zero_of_lt h0 h1]; simp

theorem rem_one (a : Int) : rem a 1 = 0 := by
  unfold rem; simp

/-- Truncating a wall-only time to the second clears the nanoseconds and keeps the rest. -/
theorem TruncateSecond_wall (ns : Nat) (e : Int) (l : Loc) (hns : ns < 1000000000) (he : InInt64 e) :
    Time.TruncateSecond { wall := ns, ext := e, loc := l } = { wall := 0, ext := e, loc := l } := by
  have hm : Time.hasMonotonic { wall := ns, ext := e, loc := l } = false := by
    simp only [Time.hasMonotonic, decide_eq_false_iff_not]; omega
  have hstrip : Time.stripMono { wall := ns, ext := e, loc := l } = { wall := ns, ext := e, loc := l } := by
    simp only [Time.stripMono, hm, Bool.false_eq_true, if_false]
  have hnsec : Time.nsec { wall := ns, ext := e, loc := l } = (ns : Int) := by
    simp only [Time.nsec]; omega
  have hsec : Time.sec { wall := ns, ext := e, loc := l } = e := by
    simp only [Time.sec, hm, Bool.false_eq_true, if_false]
  have hr : Time.divSecondRem { wall := ns, ext := e, loc := l } = (ns : Int) := by
    simp only [Time.divSecondRem, hnsec, hsec, rem_one, wrap64]
    by_cases hneg : e < 0
    · simp only [hneg, decide_True, if_true, true_and]
      by_cases hz : ns = 0
      · subst hz; simp
      · have : -(ns : Int) < 0 := by omega
        simp only [this, if_true]
        split <;> omega
    · simp only [hneg, decide_False, Bool.false_eq_true, if_false, false_and]
      omega
  unfold Time.TruncateSecond
  simp only [hstrip, hr]
  have h0 : (0 : Int) ≤ (ns : Int) := by omega
  have h1 : (ns : Int) < 1000000000 := by omega
  unfold Time.Add
  simp only [quo_neg_small h0 h1, rem_neg_small h0 h1, hnsec]
  have hn0 : ¬ ((ns : Int) + -(ns : Int) ≥ 1000000000) := by omega
  have hn1 : ¬ ((ns : Int) + -(ns : Int) < 0) := by omega
  simp only [hn0, hn1, if_false]
  have hw : ns / 1073741824 * 1073741824 + ((ns : Int) + -(ns : Int)).toNat = 0 := by omega
  simp only [hw]
  have hm0 : Time.hasMonotonic { wall := 0, ext := e, loc := l } = false := by
    simp only [Time.hasMonotonic, decide_eq_false_iff_not]; omega
  have hadd : Time.addSec { wall := 0, ext := e, loc := l } 0 = { wall := 0, ext := e, loc := l } := by
    unfold Time.addSec
    simp only [hm0, Bool.false_eq_true, if_false, Time.stripMono, Int.add_zero, wrap64_of_InInt64 he,
      gt_iff_lt, Int.lt_irrefl, decide_False, if_true]
  simp only [hadd, hm0, Bool.false_eq_true, if_false]

theorem updaterNow_eq_Unix (c : Clock) (h : c.Valid) : updaterNow c = Unix c.sec := by
  unfold updaterNow Time.TruncateSecond
  rw [stripMono_Now c h]
  have := TruncateSecond_wall c.nsec (wrap64 (c.sec + unixToInternal)) .Local h.2.1 (wrap64_InInt64 _)
  unfold Time.TruncateSecond at this
  have hm : Time.hasMonotonic { wall := c.nsec, ext := wrap64 (c.sec + unixToInternal), loc := .Local } = false := by
    have := h.2.1
    simp only [Time.hasMonotonic, decide_eq_false_iff_not]; omega
  have hstrip : Time.stripMono { wall := c.nsec, ext := wrap64 (c.sec + unixToInternal), loc := .Local } = { wall := c.nsec, ext := wrap64 (c.sec + unixToInternal), loc := .Local } := by
    simp only [Time.stripMono, hm, Bool.false_eq_true, if_false]
  rw [hstrip] at this
  rw [this]; rfl

theorem Unix_hasMonotonic (n : Int) : (Unix n).hasMonotonic = false := by
  simp [Unix, Time.hasMonotonic]

theorem Unix_Unix (n : Int) (h : InInt64 n) : (Unix n).Unix = n := by
  unfold Time.Unix Time.sec
  rw [Unix_hasMonotonic]
  unfold InInt64 at h
  simp only [Unix, wrap64, unixToInternal, internalToUnix, Bool.false_eq_true, if_false]
  omega

theorem Unix_nsec (n : Int) : (Unix n).nsec = 0 := by
  simp [Unix, Time.nsec]

theorem Unix_inj {a b : Int} (ha : InInt64 a) (hb : InInt64 b) (h : Unix a = Unix b) : a = b := by
  have h1 := Unix_Unix a ha
  have h2 := Unix_Unix b hb
  rw [h] at h1
  omega

theorem Unix_ne_zero (n : Int) : Unix n ≠ Time.zero := by
  intro h
  have : (Unix n).loc = Time.zero.loc := by rw [h]
  simp [Unix, Time.zero] at this


theorem digitVal_digitChar (d : Nat) (h : d < 10) : digitVal (digitChar d) = some d := by
  interval_cases d <;> decide

theorem digitChar_ne_sign (d : Nat) (h : d < 10) : digitChar d ≠ '+' ∧ digitChar d ≠ '-' := by
  interval_cases d <;> decide

theorem parseUintLoop_append (n : Nat) (xs ys : List Char) :
    parseUintLoop n (xs ++ ys) =
      match parseUintLoop n xs with
      | .ok m => parseUintLoop m ys
      | .error e => .error e := by
  induction xs generalizing n with
  | nil => simp [parseUintLoop]
  | cons c cs ih =>
    simp only [List.cons_append, parseUintLoop]
    cases digitVal c with
    | none => simp
    | some d =>
      simp only []
      split
      · rfl
      · split
        · rfl
        · exact ih _

theorem parseUintLoop_digit (n d : Nat) (hd : d < 10) (h : n * 10 + d < 18446744073709551616) :
    parseUintLoop n [digitChar d] = .ok (n * 10 + d) := by
  simp only [parseUintLoop, digitVal_digitChar d hd]
  have h1 : ¬ (n ≥ 18446744073709551615 / 10 + 1) := by omega
  have h2 : (n * 10 + d) % 18446744073709551616 = n * 10 + d := Nat.mod_eq_of_lt h
  simp only [h1, if_false, h2]
  have h3 : ¬ (n * 10 + d < n * 10 ∨ n * 10 + d > 18446744073709551615) := by omega
  simp only [h3, if_false]

theorem fmtDigits_acc (fuel u : Nat) (acc : List Char) :
    fmtDigits fuel u acc = fmtDigits fuel u [] ++ acc := by
  induction fuel generalizing u acc with
  | zero => simp [fmtDigits]
  | succ k ih =>
    simp only [fmtDigits]
    split
    · simp
    · rw [ih (u / 10) (digitChar (u % 10) :: acc), ih (u / 10) [digitChar (u % 10)]]
      simp

theorem fmtDigits_ne_nil (fuel u : Nat) : fmtDigits (fuel + 1) u [] ≠ [] := by
  simp only [fmtDigits]
  split
  · simp
  · rw [fmtDigits_acc]; simp

theorem fmtDigits_mem (fuel u : Nat) (c : Char) (h : c ∈ fmtDigits fuel u []) :
    ∃ d, d < 10 ∧ c = digitChar d := by
  induction fuel generalizing u with
  | zero => simp [fmtDigits] at h
  | succ k ih =>
    simp only [fmtDigits] at h
    split at h
    · simp only [List.mem_singleton] at h
      exact ⟨u, by omega, h⟩
    · rw [fmtDigits_acc] at h
      simp only [List.mem_append, List.mem_singleton] at h
      rcases h with h | h
      · exact ih _ h
      · exact ⟨u % 10, by omega, h⟩

theorem parseUintLoop_fmtDigits (fuel u : Nat) (hf : u < 10 ^ (fuel + 1))
    (hu : u < 18446744073709551616) :
    parseUintLoop 0 (fmtDigits (fuel + 1) u []) = .ok u := by
  induction fuel generalizing u with
  | zero =>
    have h10 : u < 10 := by simpa using hf
    simp only [fmtDigits, h10, if_true]
    have := parseUintLoop_digit 0 u h10 (by omega)
    simpa using this
  | succ k ih =>
    rw [fmtDigits]
    split
    · rename_i h10
      have := parseUintLoop_digit 0 u h10 (by omega)
      simpa using this
    · rename_i h10
      rw [fmtDigits_acc, parseUintLoop_append]
      have hq : u / 10 < 10 ^ (k + 1) := by
        rw [Nat.div_lt_iff_lt_mul (by decide)]
        calc u < 10 ^ (k + 1 + 1) := hf
          _ = 10 ^ (k + 1) * 10 := by rw [Nat.pow_succ]
      rw [ih (u / 10) hq (by omega)]
      simp only []
      have := parseUintLoop_digit (u / 10) (u % 10) (by omega) (by omega)
      rw [this]
      congr 1
      omega

theorem ParseUint_fmtDigits (u : Nat) (hu : u < 18446744073709551616) :
    ParseUint (fmtDigits 20 u []) = .ok u := by
  have hp := parseUintLoop_fmtDigits 19 u (by norm_num; omega) hu
  unfold ParseUint
  split
  · rename_i heq
    exact absurd heq (fmtDigits_ne_nil 19 u)
  · exact hp

theorem fmtDigits_head (u : Nat) :
    ∃ c cs, fmtDigits 20 u [] = c :: cs ∧ c ≠ '+' ∧ c ≠ '-' := by
  cases hfd : fmtDigits 20 u [] with
  | nil => exact absurd hfd (fmtDigits_ne_nil 19 u)
  | cons c cs =>
    refine ⟨c, cs, rfl, ?_⟩
    obtain ⟨d, hd, rfl⟩ := fmtDigits_mem 20 u c (by rw [hfd]; simp)
    exact digitChar_ne_sign d hd

/-- What `%d` prints for an `int64` is read back by `Atoi`. -/
theorem Atoi_formatInt (n : Int) (h : InInt64 n) : Atoi (formatInt n) = .ok n := by
  unfold InInt64 at h
  unfold Atoi formatInt
  by_cases hneg : n < 0
  · simp only [hneg, if_true, ParseInt]
    have hu : n.natAbs < 18446744073709551616 := by omega
    simp only [ParseUint_fmtDigits _ hu, or_true, if_true]
    split_ifs with h1 h2
    · exact absurd h1.1 (by simp)
    · omega
    · congr 1; omega
  · simp only [hneg, if_false]
    obtain ⟨c, cs, hcs, hp, hm⟩ := fmtDigits_head n.natAbs
    have hu : n.natAbs < 18446744073709551616 := by omega
    have hpu := ParseUint_fmtDigits _ hu
    rw [hcs] at hpu ⊢
    simp only [ParseInt, hp, hm, or_self, if_false, hpu]
    split_ifs with h1 h2
    · omega
    · exact absurd h2.1 (by simp)
    · congr 1; omega


theorem ParseInt_ok_InInt64 (s : List Char) (n : Int) (h : ParseInt s = .ok n) : InInt64 n := by
  unfold ParseInt at h
  cases s with
  | nil => simp at h
  | cons c cs =>
    simp only [] at h
    split at h
    · simp at h
    · simp at h
    · rename_i un hun
      by_cases hneg : c = '-'
      · simp only [hneg, not_true_eq_false, false_and, if_false, true_and, if_true] at h
        split_ifs at h with h2
        simp only [Except.ok.injEq] at h
        subst h; unfold InInt64; omega
      · simp only [hneg, not_false_eq_true, true_and, false_and, if_false] at h
        split_ifs at h with h1
        simp only [Except.ok.injEq] at h
        subst h; unfold InInt64; omega

theorem Atoi_ok_InInt64 (v : String) (n : Int) (h : Atoi v = .ok n) : InInt64 n :=
  ParseInt_ok_InInt64 _ _ h

theorem parseUintLoop_ok_digits (n m : Nat) (cs : List Char) (h : parseUintLoop n cs = .ok m) :
    ∀ c ∈ cs, digitVal c ≠ none := by
  induction cs generalizing n with
  | nil => simp
  | cons c cs ih =>
    intro x hx
    simp only [parseUintLoop] at h
    cases hd : digitVal c with
    | none => simp [hd] at h
    | some d =>
      simp only [hd] at h
      split_ifs at h with h1 h2
      rcases List.mem_cons.mp hx with rfl | hx
      · simp [hd]
      · exact ih _ h x hx

theorem ParseInt_ok_digits (s : List Char) (n : Int) (h : ParseInt s = .ok n) :
    unsignedPart s ≠ [] ∧ ∀ c ∈ unsignedPart s, digitVal c ≠ none := by
  unfold ParseInt at h
  cases s with
  | nil => simp at h
  | cons c cs =>
    simp only [] at h
    split at h
    · simp at h
    · simp at h
    · rename_i un hun
      unfold ParseUint at hun
      split at hun
      · simp at hun
      · rename_i hne
        exact ⟨fun he => hne (by simpa [unsignedPart] using he),
          parseUintLoop_ok_digits _ _ _ hun⟩

/-! ## `strconv.Atoi` against the decimal reading of a line -/

theorem digitVal_le (c : Char) (d : Nat) (h : digitVal c = some d) : d ≤ 9 := by
  unfold digitVal at h
  split_ifs at h with hc
  simp only [Option.some.injEq] at h
  omega

theorem digitsValue_ge (acc m : Nat) (cs : List Char) (h : digitsValue acc cs = some m) :
    acc ≤ m := by
  induction cs generalizing acc with
  | nil => simp only [digitsValue, Option.some.injEq] at h; omega
  | cons c cs ih =>
    simp only [digitsValue] at h
    cases hd : digitVal c with
    | none => simp [hd] at h
    | some d =>
      simp only [hd] at h
      have := ih _ h
      omega

theorem digitsValue_none_iff (acc : Nat) (cs : List Char) :
    digitsValue acc cs = none ↔ ∃ c ∈ cs, digitVal c = none := by
  induction cs generalizing acc with
  | nil => simp [digitsValue]
  | cons c cs ih =>
    simp only [digitsValue, List.mem_cons, exists_eq_or_imp]
    cases hd : digitVal c with
    | none => simp
    | some d => simp [ih]

/-- The digit loop of `ParseUint` returns the number the digits write when it is below
2^64, a range error when it is not, and an error when a character is not a digit. -/
theorem parseUintLoop_digitsValue (acc : Nat) (cs : List Char)
    (hacc : acc < 18446744073709551616) :
    (digitsValue acc cs = none → ∃ e, parseUintLoop acc cs = .error e) ∧
    (∀ m, digitsValue acc cs = some m → m < 18446744073709551616 →
      parseUintLoop acc cs = .ok m) ∧
    (∀ m, digitsValue acc cs = some m → ¬ m < 18446744073709551616 →
      parseUintLoop acc cs = .error .ErrRange) := by
  induction cs generalizing acc with
  | nil =>
    refine ⟨?_, ?_, ?_⟩
    · intro h; simp [digitsValue] at h
    · intro m h _; simp only [digitsValue, Option.some.injEq] at h; subst h; rfl
    · intro m h hm; simp only [digitsValue, Option.some.injEq] at h; subst h; exact absurd hacc hm
  | cons c cs ih =>
    cases hd : digitVal c with
    | none =>
      refine ⟨?_, ?_, ?_⟩
      · intro _; exact ⟨.ErrSyntax, by simp [parseUintLoop, hd]⟩
      · intro m h; simp [digitsValue, hd] at h
      · intro m h; simp [digitsValue, hd] at h
    | some d =>
      have hd9 := digitVal_le c d hd
      simp only [digitsValue, parseUintLoop, hd]
      by_cases hcut : acc ≥ 18446744073709551615 / 10 + 1
      · simp only [hcut, if_true]
        refine ⟨fun _ => ⟨_, rfl⟩, ?_, ?_⟩
        · intro m h hm
          have := digitsValue_ge _ _ _ h
          omega
        · intros; trivial
      · simp only [hcut, if_false]
        by_cases hov : acc * 10 + d < 18446744073709551616
        · have hmod : (acc * 10 + d) % 18446744073709551616 = acc * 10 + d :=
            Nat.mod_eq_of_lt hov
          have hno : ¬ (acc * 10 + d < acc * 10 ∨ acc * 10 + d > 18446744073709551615) := by
            omega
          simp only [hmod, hno, if_false]
          exact ih (acc * 10 + d) hov
        · have hmod : (acc * 10 + d) % 18446744073709551616 =
              acc * 10 + d - 18446744073709551616 := by omega
          have hyes : acc * 10 + d - 18446744073709551616 < acc * 10 ∨
              acc * 10 + d - 18446744073709551616 > 18446744073709551615 := by omega
          simp only [hmod, hyes, if_true]
          refine ⟨fun _ => ⟨_, rfl⟩, ?_, ?_⟩
          · intro m h hm
            have := digitsValue_ge _ _ _ h
            omega
          · intros; trivial

theorem ParseUint_decimalNat (cs : List Char) :
    (decimalNat cs = none → ∃ e, ParseUint cs = .error e) ∧
    (∀ m, decimalNat cs = some m → m < 18446744073709551616 → ParseUint cs = .ok m) ∧
    (∀ m, decimalNat cs = some m → ¬ m < 18446744073709551616 →
      ParseUint cs = .error .ErrRange) := by
  cases cs with
  | nil =>
    refine ⟨fun _ => ⟨_, rfl⟩, ?_, ?_⟩
    · intro m h; simp [decimalNat] at h
    · intro m h; simp [decimalNat] at h
  | cons c cs =>
    simp only [decimalNat, ParseUint]
    exact parseUintLoop_digitsValue 0 (c :: cs) (by decide)

/-- The model of `ParseInt` on a sign and a body, in terms of the number the body writes. -/
theorem ParseInt_cons (c : Char) (cs : List Char) :
    ParseInt (c :: cs) =
      match ParseUint (if c = '+' ∨ c = '-' then cs else c :: cs) with
      | .error .ErrSyntax => .error .ErrSyntax
      | .error .ErrRange => .error .ErrRange
      | .ok un =>
        if ¬ (c = '-') ∧ un ≥ 9223372036854775808 then .error .ErrRange
        else if c = '-' ∧ un > 9223372036854775808 then .error .ErrRange
        else .ok (if c = '-' then -(un : Int) else (un : Int)) := by
  simp only [ParseInt]

theorem ParseInt_body (c : Char) (cs body : List Char) (neg : Bool)
    (hbody : (if c = '+' ∨ c = '-' then cs else c :: cs) = body)
    (hneg : (c = '-') ↔ neg = true) :
    (decimalNat body = none → ∃ e, ParseInt (c :: cs) = .error e) ∧
    (∀ m, decimalNat body = some m →
      InInt64 (if neg then -(m : Int) else (m : Int)) →
      ParseInt (c :: cs) = .ok (if neg then -(m : Int) else (m : Int))) ∧
    (∀ m, decimalNat body = some m →
      ¬ InInt64 (if neg then -(m : Int) else (m : Int)) →
      ParseInt (c :: cs) = .error .ErrRange) := by
  obtain ⟨h1, h2, h3⟩ := ParseUint_decimalNat body
  rw [ParseInt_cons, hbody]
  refine ⟨?_, ?_, ?_⟩
  · intro hn
    obtain ⟨e, he⟩ := h1 hn
    rw [he]
    cases e with
    | ErrSyntax => exact ⟨_, rfl⟩
    | ErrRange => exact ⟨_, rfl⟩
  · intro m hm hin
    unfold InInt64 at hin
    have hlt : m < 18446744073709551616 := by
      cases neg <;> simp at hin <;> omega
    rw [h2 m hm hlt]
    cases neg with
    | false =>
      have hc : ¬ (c = '-') := by simpa using hneg
      simp only [hc, not_false_eq_true, true_and, false_and, if_false, Bool.false_eq_true]
      simp only [Bool.false_eq_true, if_false] at hin
      have : ¬ (m ≥ 9223372036854775808) := by omega
      simp only [this, if_false]
    | true =>
      have hc : c = '-' := by simpa using hneg
      simp only [hc, not_true_eq_false, false_and, if_false, true_and, if_true]
      simp only [if_true] at hin
      have : ¬ (m > 9223372036854775808) := by omega
      simp only [this, if_false]
  · intro m hm hout
    unfold InInt64 at hout
    by_cases hlt : m < 18446744073709551616
    · rw [h2 m hm hlt]
      cases neg with
      | false =>
        have hc : ¬ (c = '-') := by simpa using hneg
        simp only [hc, not_false_eq_true, true_and, false_and, if_false]
        simp only [Bool.false_eq_true, if_false] at hout
        have : m ≥ 9223372036854775808 := by omega
        simp only [this, if_true]
      | true =>
        have hc : c = '-' := by simpa using hneg
        simp only [hc, not_true_eq_false, false_and, if_false, true_and]
        simp only [if_true] at hout
        have : m > 9223372036854775808 := by omega
        simp only [this, if_true]
    · rw [h3 m hm hlt]

/-- The model of `ParseInt` against the decimal reading of the line. -/
theorem ParseInt_lineInteger (s : List Char) :
    (lineInteger s = none → ∃ e, ParseInt s = .error e) ∧
    (∀ n, lineInteger s = some n → InInt64 n → ParseInt s = .ok n) ∧
    (∀ n, lineInteger s = some n → ¬ InInt64 n → ParseInt s = .error .ErrRange) := by
  cases s with
  | nil =>
    refine ⟨fun _ => ⟨.ErrSyntax, rfl⟩, ?_, ?_⟩
    · intro n h; simp [lineInteger] at h
    · intro n h; simp [lineInteger] at h
  | cons c cs =>
    by_cases hm : c = '-'
    · obtain ⟨h1, h2, h3⟩ := ParseInt_body c cs cs true (by simp [hm]) (by simp [hm])
      have hl : lineInteger (c :: cs) = (decimalNat cs).map (fun (u : Nat) => -(Int.ofNat u)) := by
        simp only [lineInteger, hm, if_true]
      rw [hl]
      refine ⟨?_, ?_, ?_⟩
      · intro h; exact h1 (by simpa using h)
      · intro n h hin
        obtain ⟨u, hu, rfl⟩ := Option.map_eq_some'.mp h
        exact h2 u hu hin
      · intro n h hout
        obtain ⟨u, hu, rfl⟩ := Option.map_eq_some'.mp h
        exact h3 u hu hout
    · by_cases hp : c = '+'
      · obtain ⟨h1, h2, h3⟩ := ParseInt_body c cs cs false (by simp [hp]) (by simp [hm])
        have hl : lineInteger (c :: cs) = (decimalNat cs).map (fun (u : Nat) => Int.ofNat u) := by
          show (if c = '-' then _ else if c = '+' then _ else _) = _
          rw [if_neg hm, if_pos hp]
        rw [hl]
        refine ⟨?_, ?_, ?_⟩
        · intro h; exact h1 (by simpa using h)
        · intro n h hin
          obtain ⟨u, hu, rfl⟩ := Option.map_eq_some'.mp h
          exact h2 u hu hin
        · intro n h hout
          obtain ⟨u, hu, rfl⟩ := Option.map_eq_some'.mp h
          exact h3 u hu hout
      · obtain ⟨h1, h2, h3⟩ := ParseInt_body c cs (c :: cs) false (by simp [hp, hm]) (by simp [hm])
        have hl : lineInteger (c :: cs) =
            (decimalNat (c :: cs)).map (fun (u : Nat) => Int.ofNat u) := by
          simp only [lineInteger, hm, if_false, hp]
        rw [hl]
        refine ⟨?_, ?_, ?_⟩
        · intro h; exact h1 (by simpa using h)
        · intro n h hin
          obtain ⟨u, hu, rfl⟩ := Option.map_eq_some'.mp h
          exact h2 u hu hin
        · intro n h hout
          obtain ⟨u, hu, rfl⟩ := Option.map_eq_some'.mp h
          exact h3 u hu hout

/-- A line denotes no integer exactly when, after an optional sign, it is empty or has
a character that is not a decimal digit. -/
theorem lineInteger_none_iff (s : List Char) :
    lineInteger s = none ↔
      unsignedPart s = [] ∨ ∃ c ∈ unsignedPart s, digitVal c = none := by
  have hdec : ∀ cs : List Char,
      decimalNat cs = none ↔ cs = [] ∨ ∃ c ∈ cs, digitVal c = none := by
    intro cs
    cases cs with
    | nil => simp [decimalNat]
    | cons c cs => simp only [decimalNat, digitsValue_none_iff, reduceCtorEq, false_or]
  cases s with
  | nil => simp [lineInteger, unsignedPart]
  | cons c cs =>
    by_cases hm : c = '-'
    · have hl : lineInteger (c :: cs) = (decimalNat cs).map (fun (u : Nat) => -(Int.ofNat u)) := by
        simp only [lineInteger, hm, if_true]
      have hu : unsignedPart (c :: cs) = cs := by simp [unsignedPart, hm]
      rw [hl, hu, Option.map_eq_none', hdec]
    · by_cases hp : c = '+'
      · have hl : lineInteger (c :: cs) = (decimalNat cs).map (fun (u : Nat) => Int.ofNat u) := by
          show (if c = '-' then _ else if c = '+' then _ else _) = _
          rw [if_neg hm, if_pos hp]
        have hu : unsignedPart (c :: cs) = cs := by simp [unsignedPart, hp]
        rw [hl, hu, Option.map_eq_none', hdec]
      · have hl : lineInteger (c :: cs) =
            (decimalNat (c :: cs)).map (fun (u : Nat) => Int.ofNat u) := by
          simp only [lineInteger, hm, if_false, hp]
        have hu : unsignedPart (c :: cs) = c :: cs := by simp [unsignedPart, hp, hm]
        rw [hl, hu, Option.map_eq_none', hdec]

/-- What `%d` prints for an `int64` denotes that integer. -/
theorem lineInteger_formatInt (n : Int) (h : InInt64 n) :
    lineInteger (formatInt n).data = some n := by
  obtain ⟨h1, h2, h3⟩ := ParseInt_lineInteger (formatInt n).data
  have ha : ParseInt (formatInt n).data = .ok n := Atoi_formatInt n h
  cases hl : lineInteger (formatInt n).data with
  | none =>
    obtain ⟨e, he⟩ := h1 hl
    rw [he] at ha; simp at ha
  | some k =>
    by_cases hk : InInt64 k
    · have := h2 k hl hk
      rw [this] at ha
      simp only [Except.ok.injEq] at ha
      rw [ha]
    · have := h3 k hl hk
      rw [this] at ha; simp at ha

/-! ## The loop body -/

theorem mainLoopBody_appliedSecrets (s : State) (c : Clock) (t : Time) :
    mainLoopBody s c (.appliedSecrets t) =
      ({ s with lastSecretUpdate := t }, { stdout := [], log := [], trigger := false }) := rfl

theorem mainLoopBody_error (s : State) (c : Clock) (v : String) (e : NumError)
    (h : Atoi v = .error e) :
    mainLoopBody s c (.podVals v) =
      (s, { stdout := [], log := [.parseWarn v e], trigger := false }) := by
  simp only [mainLoopBody, h]

theorem mainLoopBody_ok (s : State) (c : Clock) (v : String) (n : Int) (h : Atoi v = .ok n) :
    mainLoopBody s c (.podVals v) =
      ({ s with lastPodVal := Unix n },
       { stdout := [],
         log := if Unix n = s.lastSecretUpdate then
           [.caught s.lastSecretUpdate.Unix ((Now c).Sub s.lastSecretUpdate)] else [],
         trigger := decide (Unix n = s.lastSecretUpdate) }) := by
  simp only [mainLoopBody, h]
  by_cases hm : Unix n = s.lastSecretUpdate
  · simp [hm]
  · simp [hm]

/-- No iteration writes anything to standard output. -/
theorem mainLoopBody_stdout (s : State) (c : Clock) (e : Event) :
    (mainLoopBody s c e).2.stdout = [] := by
  cases e with
  | appliedSecrets t => rfl
  | podVals v =>
    cases h : Atoi v with
    | error err => rw [mainLoopBody_error s c v err h]
    | ok n => rw [mainLoopBody_ok s c v n h]

theorem mainLoopBody_podVals_lastSecretUpdate (s : State) (c : Clock) (v : String) :
    (mainLoopBody s c (.podVals v)).1.lastSecretUpdate = s.lastSecretUpdate := by
  cases h : Atoi v with
  | error err => rw [mainLoopBody_error s c v err h]
  | ok n => rw [mainLoopBody_ok s c v n h]

theorem mainLoopBody_trigger (s : State) (c : Clock) (v : String)
    (h : (mainLoopBody s c (.podVals v)).2.trigger = true) :
    ∃ n, Atoi v = .ok n ∧ Unix n = s.lastSecretUpdate := by
  cases ha : Atoi v with
  | error err => rw [mainLoopBody_error s c v err ha] at h; simp at h
  | ok n =>
    rw [mainLoopBody_ok s c v n ha] at h
    exact ⟨n, rfl, by simpa using h⟩

/-- The value stored in `lastPodVal` is the one the parse step returns. -/
theorem mainLoopBody_valueParser (s : State) (c : Clock) (v : String) :
    (mainLoopBody s c (.podVals v)).1.lastPodVal =
      match valueParser v with
      | .ok t => t
      | .error _ => s.lastPodVal := by
  unfold valueParser
  cases h : Atoi v with
  | error err => rw [mainLoopBody_error s c v err h]
  | ok n => rw [mainLoopBody_ok s c v n h]

theorem mainLoop_append (r : Run) (xs ys : List (Clock × Event)) :
    mainLoop r (xs ++ ys) = mainLoop (mainLoop r xs) ys := by
  induction xs generalizing r with
  | nil => rfl
  | cons x xs ih => obtain ⟨c, e⟩ := x; simp only [List.cons_append, mainLoop]; exact ih _

/-- Observations handled while `lastSecretUpdate` is still the zero `time.Time`. -/
theorem mainLoop_observations (r : Run) (obs : List (Clock × String))
    (h : r.state.lastSecretUpdate = Time.zero) :
    (mainLoop r (observations obs)).stdout = r.stdout ∧
    (mainLoop r (observations obs)).sent = r.sent ∧
    (mainLoop r (observations obs)).state.lastSecretUpdate = Time.zero ∧
    (mainLoop r (observations obs)).state.lastPodVal =
      lastParsed r.state.lastPodVal (obs.map Prod.snd) := by
  induction obs generalizing r with
  | nil => simp [observations, mainLoop, lastParsed, h]
  | cons p rest ih =>
    obtain ⟨c, v⟩ := p
    simp only [observations, List.map_cons, mainLoop] at ih ⊢
    cases ha : Atoi v with
    | error err =>
      have hstep : r.step c (.podVals v) = { r with log := r.log ++ [.parseWarn v err] } := by
        simp only [Run.step, mainLoopBody_error r.state c v err ha]
        simp
      rw [hstep]
      have := ih { r with log := r.log ++ [.parseWarn v err] } h
      simp only [lastParsed, List.foldl_cons, valueParser, ha] at this ⊢
      exact this
    | ok n =>
      have hne : Unix n ≠ r.state.lastSecretUpdate := by rw [h]; exact Unix_ne_zero n
      have hstep : r.step c (.podVals v) =
          { r with state := { r.state with lastPodVal := Unix n } } := by
        simp only [Run.step, mainLoopBody_ok r.state c v n ha, hne]
        simp
      rw [hstep]
      have := ih { r with state := { r.state with lastPodVal := Unix n } } h
      simp only [lastParsed, List.foldl_cons, valueParser, ha] at this ⊢
      exact this


/-! ## The composed system -/

theorem Sys.run_append (s : Sys) (xs ys : List Action) :
    Sys.run s (xs ++ ys) =
      match Sys.run s xs with
      | none => none
      | some s1 => Sys.run s1 ys := by
  induction xs generalizing s with
  | nil => rfl
  | cons a xs ih =>
    simp only [List.cons_append, Sys.run]
    cases s.step a with
    | none => rfl
    | some s1 => exact ih s1

theorem Sys.step_trigger {s s1 : Sys} {c : Clock} (h : s.step (.trigger c) = some s1) :
    (s.mainPc = .initSend ∨ s.mainPc = .send) ∧ s.updaterPc = .range ∧
    s1 = { s with mainPc := .select, updaterPc := .apply (updaterNow c) } := by
  simp only [Sys.step] at h
  by_cases hen : (s.mainPc = .initSend ∨ s.mainPc = .send) ∧ s.updaterPc = .range
  · rw [if_pos hen] at h
    simp only [Option.some.injEq] at h
    exact ⟨hen.1, hen.2, h.symm⟩
  · rw [if_neg hen] at h; simp at h

theorem Sys.step_applied {s s1 : Sys} {err : Option String} (h : s.step (.applied err) = some s1) :
    ∃ now, s.updaterPc = .apply now ∧ s1 = { s with updaterPc := .emit now } := by
  simp only [Sys.step] at h
  split at h
  · rename_i now hu
    simp only [Option.some.injEq] at h
    exact ⟨now, hu, h.symm⟩
  · simp at h

theorem Sys.step_write {s s1 : Sys} {w : Time} {c : Clock} (h : s.step (.write w c) = some s1) :
    s.mainPc = .select ∧ s.updaterPc = .emit w ∧
    s1 = { vars := { s.vars with lastSecretUpdate := w }, mainPc := .select,
           updaterPc := .range } := by
  simp only [Sys.step] at h
  by_cases hen : s.mainPc = .select ∧ s.updaterPc = .emit w
  · rw [if_pos hen] at h
    simp only [Option.some.injEq, mainLoopBody_appliedSecrets] at h
    refine ⟨hen.1, hen.2, ?_⟩
    rw [← h]; simp
  · rw [if_neg hen] at h; simp at h

theorem Sys.step_obs {s s1 : Sys} {c : Clock} {v : String} (h : s.step (.obs c v) = some s1) :
    s.mainPc = .select ∧
    s1 = { s with vars := (mainLoopBody s.vars c (.podVals v)).1,
                  mainPc := if (mainLoopBody s.vars c (.podVals v)).2.trigger then .send
                            else .select } := by
  simp only [Sys.step] at h
  by_cases hen : s.mainPc = .select
  · rw [if_pos hen] at h
    simp only [Option.some.injEq] at h
    exact ⟨hen, h.symm⟩
  · rw [if_neg hen] at h; simp at h

theorem Cycle.step {w : Time} {s s1 : Sys} {m : List Action} {a : Action}
    (h : Cycle w s m) (hs : s.step a = some s1) (ha : a.isTrigger = false) :
    Cycle w s1 (m ++ [a]) := by
  rcases h with ⟨hu, hm⟩ | ⟨hu, hp, hl, m1, cw, m2, hmid, hnw⟩ | ⟨hu, hp, -⟩
  · -- the write has not been handed over yet
    cases a with
    | trigger c => simp [Action.isTrigger] at ha
    | applied err =>
      obtain ⟨now, hnow, rfl⟩ := Sys.step_applied hs
      left
      refine ⟨?_, ?_⟩
      · rcases hu with hu | hu
        · rw [hu] at hnow
          simp only [UpdaterPc.apply.injEq] at hnow
          subst hnow; right; rfl
        · rw [hu] at hnow; simp at hnow
      · intro b hb
        rcases List.mem_append.mp hb with hb | hb
        · exact hm b hb
        · simp only [List.mem_singleton] at hb; subst hb; rfl
    | write w1 c =>
      obtain ⟨hsel, hemit, rfl⟩ := Sys.step_write hs
      have hw : w1 = w := by
        rcases hu with hu | hu
        · rw [hu] at hemit; simp at hemit
        · rw [hu] at hemit
          simp only [UpdaterPc.emit.injEq] at hemit
          exact hemit.symm
      subst hw
      right; left
      exact ⟨rfl, rfl, rfl, m, c, [], by simp, by simpa using hm⟩
    | obs c v =>
      obtain ⟨hsel, rfl⟩ := Sys.step_obs hs
      left
      refine ⟨hu, ?_⟩
      intro b hb
      rcases List.mem_append.mp hb with hb | hb
      · exact hm b hb
      · simp only [List.mem_singleton] at hb; subst hb; rfl
  · -- the write was handed over and is not confirmed yet
    cases a with
    | trigger c => simp [Action.isTrigger] at ha
    | applied err =>
      obtain ⟨now, hnow, -⟩ := Sys.step_applied hs
      rw [hu] at hnow; simp at hnow
    | write w1 c =>
      obtain ⟨-, hemit, -⟩ := Sys.step_write hs
      rw [hu] at hemit; simp at hemit
    | obs c v =>
      obtain ⟨-, rfl⟩ := Sys.step_obs hs
      by_cases ht : (mainLoopBody s.vars c (.podVals v)).2.trigger = true
      · right; right
        obtain ⟨n, hn, hmatch⟩ := mainLoopBody_trigger s.vars c v ht
        refine ⟨hu, by simp [ht], m1, cw, m2, c, v, n, ?_, hnw, hn, ?_⟩
        · rw [hmid]; simp
        · rw [hmatch, hl]
      · right; left
        refine ⟨hu, by simp [ht], ?_, m1, cw, m2 ++ [.obs c v], ?_, ?_⟩
        · simp only [mainLoopBody_podVals_lastSecretUpdate]; exact hl
        · rw [hmid]; simp
        · intro b hb
          simp only [List.mem_append, List.mem_singleton] at hb
          rcases hb with hb | hb | hb
          · exact hnw b (List.mem_append.mpr (Or.inl hb))
          · exact hnw b (List.mem_append.mpr (Or.inr hb))
          · subst hb; rfl
  · -- main is blocked in the send: only a trigger is enabled
    cases a with
    | trigger c => simp [Action.isTrigger] at ha
    | applied err =>
      obtain ⟨now, hnow, -⟩ := Sys.step_applied hs
      rw [hu] at hnow; simp at hnow
    | write w1 c =>
      obtain ⟨-, hemit, -⟩ := Sys.step_write hs
      rw [hu] at hemit; simp at hemit
    | obs c v =>
      obtain ⟨hsel, -⟩ := Sys.step_obs hs
      rw [hp] at hsel; simp at hsel

theorem Cycle.run {w : Time} (rest : List Action) :
    ∀ {s s1 : Sys} {m : List Action}, Cycle w s m → Sys.run s rest = some s1 →
      (∀ a ∈ rest, a.isTrigger = false) → Cycle w s1 (m ++ rest) := by
  induction rest with
  | nil =>
    intro s s1 m h hr _
    simp only [Sys.run, Option.some.injEq] at hr
    subst hr; simpa using h
  | cons a rest ih =>
    intro s s1 m h hr hnt
    simp only [Sys.run] at hr
    cases hs : s.step a with
    | none => rw [hs] at hr; simp at hr
    | some s2 =>
      rw [hs] at hr
      have h2 := Cycle.step h hs (hnt a (List.mem_cons_self _ _))
      have := ih h2 hr (fun b hb => hnt b (List.mem_cons_of_mem _ hb))
      simpa using this

/-- Delivered triggers: in every execution of the composed system, between a trigger
that the updater received (whose write has the value `updaterNow c1`) and the next
trigger that it received, exactly one WriteEvent is received by `main`, it carries that
value, and the last action before the next trigger is an observation, handled after
that WriteEvent, whose parsed value equals the value written. This speaks of sends on
`updateSecret` that completed, not of control reaching line 59. -/
theorem delivered_triggers_disciplined (pre mid : List Action) (c1 c2 : Clock) (s : Sys)
    (hrun : Sys.run Sys.init (pre ++ (.trigger c1 :: (mid ++ [.trigger c2]))) = some s)
    (hmid : ∀ a ∈ mid, a.isTrigger = false) :
    ∃ m1 cw m2 co v n,
      mid = m1 ++ .write (updaterNow c1) cw :: (m2 ++ [.obs co v]) ∧
      (∀ a ∈ m1 ++ m2, a.isWrite = false) ∧
      Atoi v = .ok n ∧ Unix n = updaterNow c1 := by
  rw [Sys.run_append] at hrun
  cases hpre : Sys.run Sys.init pre with
  | none => rw [hpre] at hrun; simp at hrun
  | some s0 =>
    rw [hpre] at hrun
    simp only [Sys.run] at hrun
    cases ht : s0.step (.trigger c1) with
    | none => rw [ht] at hrun; simp at hrun
    | some s1 =>
      rw [ht] at hrun
      simp only [] at hrun
      have hstart : Cycle (updaterNow c1) s1 [] := by
        obtain ⟨-, -, rfl⟩ := Sys.step_trigger ht
        left
        exact ⟨Or.inl rfl, by simp⟩
      rw [Sys.run_append] at hrun
      cases hm : Sys.run s1 mid with
      | none => rw [hm] at hrun; simp at hrun
      | some s2 =>
        rw [hm] at hrun
        simp only [Sys.run] at hrun
        have hcyc := Cycle.run mid hstart hm hmid
        simp only [List.nil_append] at hcyc
        cases ht2 : s2.step (.trigger c2) with
        | none => rw [ht2] at hrun; simp at hrun
        | some s3 =>
          obtain ⟨hpc, hrange, -⟩ := Sys.step_trigger ht2
          rcases hcyc with ⟨hu, -⟩ | ⟨-, hp, -⟩ | ⟨-, -, hex⟩
          · rcases hu with hu | hu <;> rw [hu] at hrange <;> simp at hrange
          · rw [hp] at hpc; simp at hpc
          · exact hex

/-- One full cycle: trigger, write of 1000, WriteEvent, a stale and then a matching
observation, next trigger. -/
theorem delivered_triggers_disciplined_witness :
    Sys.run Sys.init ([] ++ (.trigger ⟨1000, 250, 9⟩ ::
      ([.obs ⟨1000, 300, 10⟩ "500", .applied none, .write (Unix 1000) ⟨1000, 400, 11⟩,
        .obs ⟨1001, 0, 12⟩ "500", .obs ⟨1002, 0, 13⟩ "1000"] ++ [.trigger ⟨1002, 5, 14⟩]))) =
      some { vars := { lastSecretUpdate := Unix 1000, lastPodVal := Unix 1000 },
             mainPc := .select, updaterPc := .apply (Unix 1002) } ∧
    (∀ a ∈ [Action.obs ⟨1000, 300, 10⟩ "500", .applied none, .write (Unix 1000) ⟨1000, 400, 11⟩,
        .obs ⟨1001, 0, 12⟩ "500", .obs ⟨1002, 0, 13⟩ "1000"], a.isTrigger = false) ∧
    ∃ m1 cw m2 co v n,
      [Action.obs ⟨1000, 300, 10⟩ "500", .applied none, .write (Unix 1000) ⟨1000, 400, 11⟩,
        .obs ⟨1001, 0, 12⟩ "500", .obs ⟨1002, 0, 13⟩ "1000"] =
        m1 ++ .write (updaterNow ⟨1000, 250, 9⟩) cw :: (m2 ++ [.obs co v]) ∧
      (∀ a ∈ m1 ++ m2, a.isWrite = false) ∧
      Atoi v = .ok n ∧ Unix n = updaterNow ⟨1000, 250, 9⟩ :=
  ⟨by decide, by decide,
   delivered_triggers_disciplined [] _ ⟨1000, 250, 9⟩ ⟨1002, 5, 14⟩
     { vars := { lastSecretUpdate := Unix 1000, lastPodVal := Unix 1000 },
       mainPc := .select, updaterPc := .apply (Unix 1002) } (by decide) (by decide)⟩


/-! ## The watcher goroutine -/

theorem startPodSecretWatchLoop_lines (ls : List String) :
    startPodSecretWatchLoop (ls.map ReadLine.line) =
      { ops := ls.map ChanOp.send, returned := false } := by
  induction ls with
  | nil => rfl
  | cons l ls ih =>
    have : startPodSecretWatchLoop (ReadLine.line l :: ls.map ReadLine.line) =
        { ops := ChanOp.send l :: (ls.map ChanOp.send), returned := false } := by
      rw [startPodSecretWatchLoop, ih]
    simpa using this

theorem pipeReadLine_execCopy (ls : List String) (rest : List ChildEvent) :
    pipeReadLine (execCopy (ls.map ChildEvent.output ++ ChildEvent.exit :: rest)) =
      ls.map ReadLine.line := by
  induction ls with
  | nil => rfl
  | cons l ls ih =>
    have : pipeReadLine (execCopy (ChildEvent.output l ::
        (ls.map ChildEvent.output ++ ChildEvent.exit :: rest))) =
        ReadLine.line l :: ls.map ReadLine.line := by
      rw [execCopy, pipeReadLine, ih]
    simpa using this

/-- Whatever `ReadLine` returns, the goroutine never performs a `close` on `out`. -/
theorem startPodSecretWatchLoop_no_close (rs : List ReadLine) :
    ChanOp.close ∉ (startPodSecretWatchLoop rs).ops := by
  induction rs with
  | nil => simp [startPodSecretWatchLoop]
  | cons r rs ih =>
    cases r with
    | line l => simpa [startPodSecretWatchLoop] using ih
    | eof => simp [startPodSecretWatchLoop]
    | err msg => simpa [startPodSecretWatchLoop] using ih

theorem Chan.ofOps_sends (ls : List String) :
    Chan.ofOps (ls.map ChanOp.send) = { pending := ls, closed := false } := by
  induction ls with
  | nil => rfl
  | cons l ls ih => simp only [List.map_cons, Chan.ofOps, ih]

theorem Chan.recvN_open (ls : List String) :
    Chan.recvN { pending := ls, closed := false } ls.length = some ls ∧
    Chan.recvN { pending := ls, closed := false } (ls.length + 1) = none := by
  induction ls with
  | nil => exact ⟨rfl, rfl⟩
  | cons l ls ih =>
    obtain ⟨h1, h2⟩ := ih
    constructor
    · simp only [List.length_cons, Chan.recvN, Chan.recv, h1, Option.map_some']
    · simp only [List.length_cons, Chan.recvN, Chan.recv] at h2 ⊢
      simp only [h2, Option.map_none']

/-- C8, amended: when the process has written N lines and its output stream ends, the
watcher goroutine has sent those N lines on `out` in order and has performed no `close`
of `out` (it performs none on any sequence of `ReadLine` returns). The receiver gets
exactly those N lines, and one more receive finds the channel open and empty. A receive
that yields the empty string is handled by the loop of `main` as a line that fails to
parse: a warning is logged and the loop goes on with the next event from the same
state. -/
theorem watcher_forwards_and_never_closes (ls : List String) (rest : List ChildEvent) :
    (startPodSecretWatch (ls.map ChildEvent.output ++ ChildEvent.exit :: rest)).ops =
      ls.map ChanOp.send ∧
    ChanOp.close ∉
      (startPodSecretWatch (ls.map ChildEvent.output ++ ChildEvent.exit :: rest)).ops ∧
    (Chan.ofOps
      (startPodSecretWatch (ls.map ChildEvent.output ++ ChildEvent.exit :: rest)).ops).closed
      = false ∧
    (Chan.ofOps
      (startPodSecretWatch (ls.map ChildEvent.output ++ ChildEvent.exit :: rest)).ops).recvN
      ls.length = some ls ∧
    (Chan.ofOps
      (startPodSecretWatch (ls.map ChildEvent.output ++ ChildEvent.exit :: rest)).ops).recvN
      (ls.length + 1) = none ∧
    (∀ rs : List ReadLine, ChanOp.close ∉ (startPodSecretWatchLoop rs).ops) ∧
    (∀ (r : Run) (c : Clock) (more : List (Clock × Event)),
      mainLoop r ((c, .podVals "") :: more) =
        mainLoop { r with log := r.log ++ [.parseWarn "" .ErrSyntax] } more) := by
  have hw : startPodSecretWatch (ls.map ChildEvent.output ++ ChildEvent.exit :: rest) =
      { ops := ls.map ChanOp.send, returned := false } := by
    unfold startPodSecretWatch
    rw [pipeReadLine_execCopy, startPodSecretWatchLoop_lines]
  rw [hw]
  refine ⟨rfl, by simp, ?_, ?_, ?_, startPodSecretWatchLoop_no_close, ?_⟩
  · rw [Chan.ofOps_sends]
  · rw [Chan.ofOps_sends]; exact (Chan.recvN_open ls).1
  · rw [Chan.ofOps_sends]; exact (Chan.recvN_open ls).2
  intro r c more
  have h : Atoi "" = .error .ErrSyntax := by decide
  simp only [mainLoop, Run.step, mainLoopBody_error r.state c "" .ErrSyntax h]
  simp

/-- Once `main` is blocked in the send of line 59 while the updater is blocked in
`out <- now`, no action of the composed system is enabled. -/
theorem Sys.blocked (s : Sys) (w : Time) (hm : s.mainPc = .send) (hu : s.updaterPc = .emit w)
    (a : Action) : s.step a = none := by
  cases a with
  | trigger c => simp [Sys.step, hu]
  | applied err => simp [Sys.step, hu]
  | write w1 c => simp [Sys.step, hm]
  | obs c v => simp [Sys.step, hm]

/-! ## Properties of the measurement loop -/

/-- C1 (evaluation of the code): after a WriteEvent of value 1000 and a successfully
parsed observation `1000` in an iteration whose clock reading is 1005, standard output
still holds only the header; the LatencyRecord line `1005,1000,1000` is not written,
although the observation matched and a trigger was sent. -/
theorem latency_record_not_written :
    record 1005 1000 1000 = "1005,1000,1000" ∧
    (mainLoop mainInit
      [(⟨1001, 0, 0⟩, .appliedSecrets (updaterNow ⟨1000, 250, 9⟩)),
       (⟨1005, 0, 0⟩, .podVals "1000")]).stdout = [header] ∧
    (mainLoop mainInit
      [(⟨1001, 0, 0⟩, .appliedSecrets (updaterNow ⟨1000, 250, 9⟩)),
       (⟨1005, 0, 0⟩, .podVals "1000")]).sent = 2 := by
  decide

/-- C2 (evaluation of the code): after the WriteEvent of value 1000 and the observation
`1000`, which sends the next trigger, a second observation `1000` reaches the send of
line 59 again although no WriteEvent was received in between and the write started by
the previous trigger is not confirmed: `pod caught` is logged twice. In the composed
system that order of events is possible while the updater is in `applySecret`; the
second send then never completes, the updater blocks in `out <- now`, and no step is
enabled any more. -/
theorem repeated_match_sends_again :
    (mainLoop mainInit [(⟨1000, 400, 11⟩, .appliedSecrets (updaterNow ⟨1000, 250, 9⟩)),
      (⟨1001, 0, 12⟩, .podVals "1000")]).sent = 2 ∧
    mainLoop mainInit [(⟨1000, 400, 11⟩, .appliedSecrets (updaterNow ⟨1000, 250, 9⟩)),
        (⟨1001, 0, 12⟩, .podVals "1000"), (⟨1002, 0, 15⟩, .podVals "1000")] =
      { state := { lastSecretUpdate := Unix 1000, lastPodVal := Unix 1000 },
        stdout := [header],
        log := [.caught 1000 1000000000, .caught 1000 2000000000],
        sent := 3 } ∧
    Sys.run Sys.init [.trigger ⟨1000, 250, 9⟩, .applied none,
        .write (Unix 1000) ⟨1000, 400, 11⟩, .obs ⟨1001, 0, 12⟩ "1000",
        .trigger ⟨1001, 5, 14⟩, .obs ⟨1002, 0, 15⟩ "1000", .applied none] =
      some { vars := { lastSecretUpdate := Unix 1000, lastPodVal := Unix 1000 },
             mainPc := .send, updaterPc := .emit (Unix 1001) } ∧
    (∀ a : Action,
      Sys.step { vars := { lastSecretUpdate := Unix 1000, lastPodVal := Unix 1000 },
                 mainPc := .send, updaterPc := .emit (Unix 1001) } a = none) :=
  ⟨by decide, by decide, by decide, fun a => Sys.blocked _ (Unix 1001) rfl rfl a⟩

/-- C3: for a successfully parsed observation `v` with value `n`, the iteration records
`lastPodVal = time.Unix(n, 0)`, leaves `lastSecretUpdate` alone, and reaches the send of
a new trigger exactly when the parsed value equals `lastSecretUpdate`; when
`lastSecretUpdate` is a value emitted by the updater at clock reading `c`, that is
exactly when `n` is the Unix second of `c`. -/
theorem trigger_iff_match (s : State) (cl : Clock) (v : String) (n : Int)
    (h : Atoi v = .ok n) :
    (mainLoopBody s cl (.podVals v)).1.lastPodVal = Unix n ∧
    (mainLoopBody s cl (.podVals v)).1.lastSecretUpdate = s.lastSecretUpdate ∧
    ((mainLoopBody s cl (.podVals v)).2.trigger = true ↔ Unix n = s.lastSecretUpdate) ∧
    (∀ c : Clock, c.Valid → s.lastSecretUpdate = updaterNow c →
      ((mainLoopBody s cl (.podVals v)).2.trigger = true ↔ n = c.sec)) := by
  rw [mainLoopBody_ok s cl v n h]
  refine ⟨rfl, rfl, by simp, ?_⟩
  intro c hc hs
  simp only [decide_eq_true_eq, hs, updaterNow_eq_Unix c hc]
  constructor
  · exact Unix_inj (Atoi_ok_InInt64 v n h) hc.1
  · intro hn; rw [hn]

/-- Scenario A: after a write of 1000 the observations `500`, `500`, `1000` send no
trigger on the first two and exactly one on the third. -/
theorem trigger_iff_match_witness :
    Atoi "1000" = .ok 1000 ∧
    ((mainLoopBody ⟨updaterNow ⟨1000, 0, 0⟩, Unix 500⟩ ⟨1003, 0, 0⟩ (.podVals "1000")).2.trigger = true
      ↔ Unix 1000 = updaterNow ⟨1000, 0, 0⟩) ∧
    (mainLoop mainInit [(⟨1000, 5, 0⟩, .appliedSecrets (updaterNow ⟨1000, 0, 0⟩)),
      (⟨1001, 0, 0⟩, .podVals "500")]).sent = 1 ∧
    (mainLoop mainInit [(⟨1000, 5, 0⟩, .appliedSecrets (updaterNow ⟨1000, 0, 0⟩)),
      (⟨1001, 0, 0⟩, .podVals "500"), (⟨1002, 0, 0⟩, .podVals "500")]).sent = 1 ∧
    (mainLoop mainInit [(⟨1000, 5, 0⟩, .appliedSecrets (updaterNow ⟨1000, 0, 0⟩)),
      (⟨1001, 0, 0⟩, .podVals "500"), (⟨1002, 0, 0⟩, .podVals "500"),
      (⟨1003, 0, 0⟩, .podVals "1000")]).sent = 2 :=
  ⟨by decide,
   (trigger_iff_match ⟨updaterNow ⟨1000, 0, 0⟩, Unix 500⟩ ⟨1003, 0, 0⟩ "1000" 1000 (by decide)).2.2.1,
   by decide, by decide, by decide⟩

/-- C4 (evaluation of the code): in a cycle whose `applySecret` call returns an error the
updater logs the failure, then logs `secret updated with` and sends `now` on `out`; in
the composed system that WriteEvent is delivered and changes `lastSecretUpdate`. -/
theorem failed_write_still_emitted :
    startSecretUpdatesCycle ⟨1000, 250, 9⟩ (fun _ => some "kubectl apply failed") =
      { v := "1000",
        log := [.updateFail "kubectl apply failed", .updated "1000"],
        out := [Unix 1000] } ∧
    Sys.run Sys.init [.trigger ⟨1000, 250, 9⟩, .applied (some "kubectl apply failed"),
        .write (Unix 1000) ⟨1001, 0, 0⟩] =
      some { vars := { lastSecretUpdate := Unix 1000, lastPodVal := Time.zero },
             mainPc := .select, updaterPc := .range } ∧
    Sys.init.vars.lastSecretUpdate ≠ Unix 1000 := by
  decide

/-- C5: whatever lines are received from `podVals` before any WriteEvent, standard
output holds only the header, no further trigger is sent, and `lastPodVal` is the value
of the last line that parsed (the zero `time.Time` when none did). -/
theorem no_record_before_first_write (obs : List (Clock × String)) :
    (mainLoop mainInit (observations obs)).stdout = [header] ∧
    (mainLoop mainInit (observations obs)).sent = 1 ∧
    (mainLoop mainInit (observations obs)).state.lastPodVal =
      lastParsed Time.zero (obs.map Prod.snd) := by
  obtain ⟨h1, h2, -, h4⟩ := mainLoop_observations mainInit obs rfl
  exact ⟨h1, h2, h4⟩

/-- C6: a line on which `Atoi` fails leaves both variables unchanged, prints nothing,
sends no trigger and only adds the warning to the log; the loop then handles the
remaining events from the same state. -/
theorem parse_failure_is_skipped (s : State) (c : Clock) (v : String) (e : NumError)
    (h : Atoi v = .error e) :
    mainLoopBody s c (.podVals v) =
      (s, { stdout := [], log := [.parseWarn v e], trigger := false }) ∧
    (∀ (r : Run) (rest : List (Clock × Event)),
      mainLoop r ((c, .podVals v) :: rest) =
        mainLoop { r with log := r.log ++ [.parseWarn v e] } rest) := by
  refine ⟨mainLoopBody_error s c v e h, ?_⟩
  intro r rest
  simp only [mainLoop, Run.step, mainLoopBody_error r.state c v e h]
  simp

/-- The empty line is such a line. -/
theorem parse_failure_is_skipped_witness :
    Atoi "" = .error .ErrSyntax ∧
    mainLoopBody ⟨Unix 1000, Unix 500⟩ ⟨1001, 0, 0⟩ (.podVals "") =
      (⟨Unix 1000, Unix 500⟩,
       { stdout := [], log := [.parseWarn "" .ErrSyntax], trigger := false }) ∧
    (∀ (r : Run) (rest : List (Clock × Event)),
      mainLoop r ((⟨1001, 0, 0⟩, .podVals "") :: rest) =
        mainLoop { r with log := r.log ++ [.parseWarn "" .ErrSyntax] } rest) :=
  ⟨by decide,
   parse_failure_is_skipped ⟨Unix 1000, Unix 500⟩ ⟨1001, 0, 0⟩ "" .ErrSyntax (by decide)⟩

/-- C7, as stated, fails: the line `9223372036854775808` is the decimal integer 2^63,
and the parse step returns a range error for it instead of the timestamp at 2^63
seconds. -/
theorem valueParser_rejects_large_integer :
    lineInteger "9223372036854775808".data = some 9223372036854775808 ∧
    formatInt 9223372036854775808 = "9223372036854775808" ∧
    valueParser "9223372036854775808" = .error .ErrRange := by
  decide

/-- C7, amended: the parse step returns, for every line, either a `time.Time` or an
error. When the line is a decimal integer `n` (an optional sign and one or more digits)
in the `int64` range, it returns `time.Unix(n, 0)`, whose Unix seconds are `n` and whose
nanoseconds are zero; when the line is a decimal integer outside that range it returns
a range error; when the line is no decimal integer, which is exactly when after an
optional sign it is empty or has a character that is not a decimal digit, it returns an
error. In particular the rendering of an `int64` with `%d` is read back, the empty line
is an error, and whenever the parse step succeeds the value returned is the integer the
line denotes. -/
theorem valueParser_spec :
    (∀ v : String, (∃ t, valueParser v = .ok t) ∨ (∃ e, valueParser v = .error e)) ∧
    (∀ (v : String) (n : Int), lineInteger v.data = some n → InInt64 n →
      valueParser v = .ok (Unix n) ∧ (Unix n).Unix = n ∧ (Unix n).nsec = 0) ∧
    (∀ (v : String) (n : Int), lineInteger v.data = some n → ¬ InInt64 n →
      valueParser v = .error .ErrRange) ∧
    (∀ v : String, lineInteger v.data = none → ∃ e, valueParser v = .error e) ∧
    (∀ v : String, lineInteger v.data = none ↔
      (unsignedPart v.data = [] ∨ ∃ ch ∈ unsignedPart v.data, digitVal ch = none)) ∧
    (∀ n : Int, InInt64 n →
      lineInteger (formatInt n).data = some n ∧
      valueParser (formatInt n) = .ok (Unix n) ∧ (Unix n).Unix = n ∧ (Unix n).nsec = 0) ∧
    valueParser "" = .error .ErrSyntax ∧
    (∀ v : String, unsignedPart v.data = [] → ∃ e, valueParser v = .error e) ∧
    (∀ (v : String) (ch : Char), ch ∈ unsignedPart v.data → digitVal ch = none →
      ∃ e, valueParser v = .error e) ∧
    (∀ (v : String) (t : Time), valueParser v = .ok t →
      ∃ n, lineInteger v.data = some n ∧ InInt64 n ∧ Atoi v = .ok n ∧ t = Unix n ∧
        t.Unix = n) := by
  have hin : ∀ (v : String) (n : Int), lineInteger v.data = some n → InInt64 n →
      valueParser v = .ok (Unix n) := by
    intro v n hl hn
    have : Atoi v = .ok n := (ParseInt_lineInteger v.data).2.1 n hl hn
    simp only [valueParser, this]
  have hout : ∀ (v : String) (n : Int), lineInteger v.data = some n → ¬ InInt64 n →
      valueParser v = .error .ErrRange := by
    intro v n hl hn
    have : Atoi v = .error .ErrRange := (ParseInt_lineInteger v.data).2.2 n hl hn
    simp only [valueParser, this]
  have hnone : ∀ v : String, lineInteger v.data = none → ∃ e, valueParser v = .error e := by
    intro v hl
    obtain ⟨e, he⟩ := (ParseInt_lineInteger v.data).1 hl
    have : Atoi v = .error e := he
    exact ⟨e, by simp only [valueParser, this]⟩
  refine ⟨?_, ?_, hout, hnone, ?_, ?_, by decide, ?_, ?_, ?_⟩
  · intro v
    unfold valueParser
    cases Atoi v with
    | error e => exact Or.inr ⟨e, rfl⟩
    | ok n => exact Or.inl ⟨_, rfl⟩
  · intro v n hl hn
    exact ⟨hin v n hl hn, Unix_Unix n hn, Unix_nsec n⟩
  · intro v
    exact lineInteger_none_iff v.data
  · intro n hn
    have hl := lineInteger_formatInt n hn
    exact ⟨hl, hin _ n hl hn, Unix_Unix n hn, Unix_nsec n⟩
  · intro v hempty
    exact hnone v ((lineInteger_none_iff v.data).mpr (Or.inl hempty))
  · intro v ch hmem hdig
    exact hnone v ((lineInteger_none_iff v.data).mpr (Or.inr ⟨ch, hmem, hdig⟩))
  · intro v t ht
    cases hl : lineInteger v.data with
    | none =>
      obtain ⟨e, he⟩ := hnone v hl
      rw [he] at ht; simp at ht
    | some n =>
      by_cases hn : InInt64 n
      · have hv := hin v n hl hn
        rw [hv] at ht
        simp only [Except.ok.injEq] at ht
        subst ht
        exact ⟨n, rfl, hn, (ParseInt_lineInteger v.data).2.1 n hl hn, rfl, Unix_Unix n hn⟩
      · rw [hout v n hl hn] at ht; simp at ht

/-- Instances of the amended C7: a line with leading zeros, a negative integer, an
integer beyond 2^64, and a line with a letter. -/
theorem valueParser_spec_witness :
    (lineInteger "007".data = some 7 ∧ InInt64 7 ∧
      valueParser "007" = .ok (Unix 7) ∧ (Unix 7).Unix = 7 ∧ (Unix 7).nsec = 0) ∧
    (lineInteger "-5".data = some (-5) ∧ InInt64 (-5) ∧
      valueParser "-5" = .ok (Unix (-5)) ∧ (Unix (-5)).Unix = -5 ∧ (Unix (-5)).nsec = 0) ∧
    (lineInteger "18446744073709551621".data = some 18446744073709551621 ∧
      ¬ InInt64 18446744073709551621 ∧
      valueParser "18446744073709551621" = .error .ErrRange) ∧
    (lineInteger "-12x".data = none ∧ ∃ e, valueParser "-12x" = .error e) ∧
    (InInt64 1700000000 ∧ lineInteger (formatInt 1700000000).data = some 1700000000 ∧
      valueParser (formatInt 1700000000) = .ok (Unix 1700000000) ∧
      (Unix 1700000000).Unix = 1700000000 ∧ (Unix 1700000000).nsec = 0) :=
  ⟨⟨by decide, by decide, valueParser_spec.2.1 "007" 7 (by decide) (by decide)⟩,
   ⟨by decide, by decide, valueParser_spec.2.1 "-5" (-5) (by decide) (by decide)⟩,
   ⟨by decide, by decide,
     valueParser_spec.2.2.1 "18446744073709551621" 18446744073709551621 (by decide) (by decide)⟩,
   ⟨by decide, valueParser_spec.2.2.2.1 "-12x" (by decide)⟩,
   ⟨by decide, valueParser_spec.2.2.2.2.2.1 1700000000 (by decide)⟩⟩

/-- C8, as stated, fails: when the process writes two lines and exits, the watcher
goroutine sends the two lines and neither returns nor closes `out` (nothing closes the
pipe, so `ReadLine` never returns `io.EOF`); the third receive from `podVals` finds the
channel open and empty instead of closed. A receive that did return the zero value of a
closed channel would be handled as an unparsable line, after which the loop goes on with
the next event. -/
theorem watcher_does_not_close :
    startPodSecretWatch [.output "1000", .output "1001", .exit] =
      { ops := [.send "1000", .send "1001"], returned := false } ∧
    ChanOp.close ∉ (startPodSecretWatch [.output "1000", .output "1001", .exit]).ops ∧
    (Chan.ofOps (startPodSecretWatch [.output "1000", .output "1001", .exit]).ops).closed
      = false ∧
    (Chan.ofOps (startPodSecretWatch [.output "1000", .output "1001", .exit]).ops).recvN 2 =
      some ["1000", "1001"] ∧
    (Chan.ofOps (startPodSecretWatch [.output "1000", .output "1001", .exit]).ops).recvN 3 =
      none ∧
    mainLoop mainInit [(⟨1002, 0, 0⟩, .podVals ""),
        (⟨1002, 1, 0⟩, .appliedSecrets (Unix 1002))] =
      { state := { lastSecretUpdate := Unix 1002, lastPodVal := Time.zero },
        stdout := [header], log := [.parseWarn "" .ErrSyntax], sent := 1 } := by
  decide

/-- C9 (evaluation of the code): the elapsed time logged for a matching observation is
computed from the clock reading taken on line 42, before the `select` starts waiting.
With that reading at 1005 s and a write value of 1000 the log says 5 s, whatever the
moment at which the observation arrives; had `now` been read on receipt at 1006 s the
value would be 6 s. -/
theorem now_read_before_waiting :
    (mainLoopBody ⟨Unix 1000, Unix 500⟩ ⟨1005, 0, 5000000000⟩ (.podVals "1000")).2.log =
      [.caught 1000 5000000000] ∧
    (Now ⟨1005, 0, 5000000000⟩).Sub (Unix 1000) = 5000000000 ∧
    (Now ⟨1006, 0, 6000000000⟩).Sub (Unix 1000) = 6000000000 := by
  decide

/-- C10: for every clock reading `c` at which the updater is triggered, the string it
hands to `applySecret` is the decimal rendering of the Unix second of `c`; `Atoi`
accepts it, `time.Unix` of the result is the very `time.Time` the updater sends as
WriteEvent, and an observation of that string handled while `lastSecretUpdate` holds
the WriteEvent's value reaches the send of the next trigger. -/
theorem written_value_round_trip (c : Clock) (hc : c.Valid)
    (applySecret : String → Option String) :
    (startSecretUpdatesCycle c applySecret).v = formatInt c.sec ∧
    (startSecretUpdatesCycle c applySecret).out = [updaterNow c] ∧
    valueParser (startSecretUpdatesCycle c applySecret).v = .ok (updaterNow c) ∧
    (∀ (s : State) (cl : Clock), s.lastSecretUpdate = updaterNow c →
      (mainLoopBody s cl (.podVals (startSecretUpdatesCycle c applySecret).v)).2.trigger
        = true) := by
  have hv : (startSecretUpdatesCycle c applySecret).v = formatInt c.sec := by
    simp only [startSecretUpdatesCycle, updaterValue, updaterNow_eq_Unix c hc,
      Unix_Unix c.sec hc.1]
  have ha : Atoi (formatInt c.sec) = .ok c.sec := Atoi_formatInt c.sec hc.1
  refine ⟨hv, rfl, ?_, ?_⟩
  · rw [hv]
    simp only [valueParser, ha, updaterNow_eq_Unix c hc]
  · intro s cl hs
    rw [hv, mainLoopBody_ok s cl _ c.sec ha]
    simp [hs, updaterNow_eq_Unix c hc]

/-- The round trip at the clock reading 1700000000.25 s. -/
theorem written_value_round_trip_witness :
    (⟨1700000000, 250000000, 42⟩ : Clock).Valid ∧
    (startSecretUpdatesCycle ⟨1700000000, 250000000, 42⟩ (fun _ => none)).v =
      formatInt 1700000000 ∧
    (startSecretUpdatesCycle ⟨1700000000, 250000000, 42⟩ (fun _ => none)).out =
      [updaterNow ⟨1700000000, 250000000, 42⟩] ∧
    valueParser (startSecretUpdatesCycle ⟨1700000000, 250000000, 42⟩ (fun _ => none)).v =
      .ok (updaterNow ⟨1700000000, 250000000, 42⟩) ∧
    (∀ (s : State) (cl : Clock),
      s.lastSecretUpdate = updaterNow ⟨1700000000, 250000000, 42⟩ →
      (mainLoopBody s cl (.podVals
        (startSecretUpdatesCycle ⟨1700000000, 250000000, 42⟩ (fun _ => none)).v)).2.trigger
        = true) :=
  ⟨by decide, written_value_round_trip ⟨1700000000, 250000000, 42⟩ (by decide) (fun _ => none)⟩


end Probe
